import Mathlib

/-!
Verification of the `NeuralNetwork` class of
`simple_neural_network_iris_example.ipynb`: a one-hidden-layer feedforward
network (ReLU hidden layer, softmax output, cross-entropy loss) trained by
full-batch gradient descent.

Matrices (2-D numpy arrays) are embedded as lists of rows over a linear
ordered field `α`.  The transcendental primitives `np.exp` and `np.log` are
taken as function parameters `exp log : α → α`; the analytic claims
instantiate them with `Real.exp` and `Real.log` over `ℝ`.  Each method of the
Python class becomes a function from the network state (a `Network α` record
holding the parameters and the cached forward intermediates) to the new state
paired with the method's return value.
-/

namespace NNFS

variable {α : Type} [LinearOrderedField α]

/-- A 2-D array: a list of rows. -/
abbrev Mat (α : Type) := List (List α)

/-- Entry `A[i][j]`, defaulting to 0 out of range. -/
def entry (A : Mat α) (i j : Nat) : α := (A.getD i []).getD j 0

/-- Dot product of two rows. -/
def dotVec (u v : List α) : α := (List.zipWith (· * ·) u v).sum

/-- Transpose (`.T` in numpy), read off a rectangular array whose width is
the width of its first row. -/
def transpose (A : Mat α) : Mat α :=
  (List.range (A.headD []).length).map (fun j => A.map (fun r => r.getD j 0))

/-- Matrix product (`np.dot`). -/
def matMul (A B : Mat α) : Mat α :=
  A.map (fun r => (transpose B).map (fun c => dotVec r c))

/-- `A + b` where `b` is a `(1, n)` bias row broadcast over the rows of `A`. -/
def matAddBias (A : Mat α) (b : List α) : Mat α :=
  A.map (fun r => List.zipWith (· + ·) r b)

/-- Elementwise difference. -/
def matSub (A B : Mat α) : Mat α := List.zipWith (List.zipWith (· - ·)) A B

/-- Elementwise (Hadamard) product (`*` on numpy arrays). -/
def matElemMul (A B : Mat α) : Mat α := List.zipWith (List.zipWith (· * ·)) A B

/-- Apply a scalar function elementwise. -/
def matMap (f : α → α) (A : Mat α) : Mat α := A.map (List.map f)

/-- Multiply every entry by a scalar. -/
def matScale (c : α) (A : Mat α) : Mat α := A.map (List.map (fun v => c * v))

/-- Divide every entry by a scalar. -/
def matDiv (A : Mat α) (c : α) : Mat α := A.map (List.map (fun v => v / c))

/-- Sum of all entries (`np.sum` with no axis). -/
def matSum (A : Mat α) : α := (A.map List.sum).sum

/-- Column sums (`np.sum(·, axis=0, keepdims=True)`), as a single row. -/
def colSum (A : Mat α) : List α := (transpose A).map List.sum

/-- `relu`: `np.maximum(0, x)` on one entry. -/
def relu (x : α) : α := max 0 x

/-- `relu_derivative`: `(x > 0).astype(float)` on one entry. -/
def relu_derivative (x : α) : α := if 0 < x then 1 else 0

/-- `np.max(x, axis=1)` on one (nonempty) row. -/
def rowMax : List α → α
  | [] => 0
  | v :: vs => vs.foldl max v

/-- One row of `softmax`: `exp_x = np.exp(x - np.max(x, axis=1, keepdims=True))`
then `exp_x / np.sum(exp_x, axis=1, keepdims=True)`. -/
def softmaxRow (exp : α → α) (r : List α) : List α :=
  let e := r.map (fun v => exp (v - rowMax r))
  e.map (fun u => u / e.sum)

/-- `softmax`, applied row-wise. -/
def softmax (exp : α → α) (A : Mat α) : Mat α := A.map (softmaxRow exp)

/-- The additive constant `1e-9` inside the loss's logarithm. -/
def eps : α := 1 / 10 ^ 9

/-- `compute_loss`: `-np.sum(y_true * np.log(y_pred + 1e-9)) / m` with
`m = y_true.shape[0]`. -/
def compute_loss (log : α → α) (y_true y_pred : Mat α) : α :=
  -(matSum (matElemMul y_true (matMap (fun v => log (v + eps)) y_pred))) /
    (y_true.length : α)

/-- The state of a `NeuralNetwork` instance: the parameters set up in
`__init__` and the four intermediates cached by `forward`. -/
structure Network (α : Type) where
  weights_input_to_hidden : Mat α
  weights_hidden_to_output : Mat α
  bias_hidden : List α
  bias_output : List α
  learning_rate : α
  z_hidden : Mat α
  a_hidden : Mat α
  z_output : Mat α
  a_output : Mat α

/-- `__init__`: weights are `0.01 *` the supplied uniform random draws,
biases are zero rows (`np.zeros((1, n))`), the cache starts absent. -/
def init (randIH randHO : Mat α) (hidden_size output_size : Nat)
    (learning_rate : α) : Network α :=
  { weights_input_to_hidden := matScale (1 / 100) randIH
    weights_hidden_to_output := matScale (1 / 100) randHO
    bias_hidden := List.replicate hidden_size 0
    bias_output := List.replicate output_size 0
    learning_rate := learning_rate
    z_hidden := []
    a_hidden := []
    z_output := []
    a_output := [] }

/-- `forward`: computes and caches the two pre-activations and the two
activations, returning the softmax output. -/
def forward (exp : α → α) (nn : Network α) (x : Mat α) : Network α × Mat α :=
  let z_hidden := matAddBias (matMul x nn.weights_input_to_hidden) nn.bias_hidden
  let a_hidden := matMap relu z_hidden
  let z_output := matAddBias (matMul a_hidden nn.weights_hidden_to_output) nn.bias_output
  let a_output := softmax exp z_output
  ({ nn with
      z_hidden := z_hidden
      a_hidden := a_hidden
      z_output := z_output
      a_output := a_output }, a_output)

/-- The hidden pre-activation gradient `dz_hidden` computed inside
`backward`: `da_hidden * relu_derivative(z_hidden)` with
`da_hidden = np.dot(dz_output, weights_hidden_to_output.T)`. -/
def dzHidden (nn : Network α) (y_true : Mat α) : Mat α :=
  matElemMul (matMul (matSub nn.a_output y_true) (transpose nn.weights_hidden_to_output))
    (matMap relu_derivative nn.z_hidden)

/-- `backward`: reads the cached intermediates, returns the four gradients
`(dw_input_to_hidden, db_hidden, dw_hidden_to_output, db_output)`.  The
method body assigns nothing to `self`, so the state component is the input
state itself. -/
def backward (nn : Network α) (x y_true : Mat α) :
    Network α × (Mat α × List α × Mat α × List α) :=
  let m : α := (y_true.length : α)
  let dz_output := matSub nn.a_output y_true
  let dw_hidden_to_output := matDiv (matMul (transpose nn.a_hidden) dz_output) m
  let db_output := (colSum dz_output).map (fun v => v / m)
  let da_hidden := matMul dz_output (transpose nn.weights_hidden_to_output)
  let dz_hidden := matElemMul da_hidden (matMap relu_derivative nn.z_hidden)
  let dw_input_to_hidden := matDiv (matMul (transpose x) dz_hidden) m
  let db_hidden := (colSum dz_hidden).map (fun v => v / m)
  (nn, (dw_input_to_hidden, db_hidden, dw_hidden_to_output, db_output))

/-- `update_parameters`: one in-place gradient-descent step. -/
def update_parameters (nn : Network α) (dw_ih : Mat α) (db_h : List α)
    (dw_ho : Mat α) (db_o : List α) : Network α :=
  { nn with
      weights_input_to_hidden :=
        matSub nn.weights_input_to_hidden (matScale nn.learning_rate dw_ih)
      bias_hidden :=
        List.zipWith (fun b g => b - nn.learning_rate * g) nn.bias_hidden db_h
      weights_hidden_to_output :=
        matSub nn.weights_hidden_to_output (matScale nn.learning_rate dw_ho)
      bias_output :=
        List.zipWith (fun b g => b - nn.learning_rate * g) nn.bias_output db_o }

/-- One iteration of the `train` loop body: forward pass, loss, backward
pass, parameter update; yields the updated state and the epoch's loss. -/
def trainStep (exp log : α → α) (nn : Network α) (x y_true : Mat α) :
    Network α × α :=
  let fr := forward exp nn x
  let loss := compute_loss log y_true fr.2
  let grads := (backward fr.1 x y_true).2
  (update_parameters fr.1 grads.1 grads.2.1 grads.2.2.1 grads.2.2.2, loss)

/-- The `train` loop from epoch index `e`, running `k` more epochs; returns
the final state, the recorded loss history (one entry per epoch) and the
progress observations `(epoch, loss)` printed when `epoch % 100 == 0`. -/
def trainAux (exp log : α → α) (x y_true : Mat α) :
    Network α → Nat → Nat → Network α × List α × List (Nat × α)
  | nn, _, 0 => (nn, [], [])
  | nn, e, k + 1 =>
    let s := trainStep exp log nn x y_true
    let rest := trainAux exp log x y_true s.1 (e + 1) k
    (rest.1, s.2 :: rest.2.1, (if e % 100 = 0 then [(e, s.2)] else []) ++ rest.2.2)

/-- `train`: runs the loop for `epochs` epochs starting at epoch index 0. -/
def train (exp log : α → α) (nn : Network α) (x y_true : Mat α)
    (epochs : Nat) : Network α × List α × List (Nat × α) :=
  trainAux exp log x y_true nn 0 epochs

/-- The state after one epoch of training. -/
def epochStep (exp log : α → α) (x y_true : Mat α) (nn : Network α) :
    Network α := (trainStep exp log nn x y_true).1

/-- The loss recorded during one epoch of training. -/
def epochLoss (exp log : α → α) (x y_true : Mat α) (nn : Network α) : α :=
  (trainStep exp log nn x y_true).2

/-- The scan behind `np.argmax` on one row: `bv` is the best value seen so
far, found at index `best`, and `i` is the index of the head of the
remaining list; a later value replaces the best only if strictly greater. -/
def argmaxGo : List α → α → Nat → Nat → Nat
  | [], _, _, best => best
  | v :: vs, bv, i, best =>
    if bv < v then argmaxGo vs v (i + 1) i else argmaxGo vs bv (i + 1) best

/-- `np.argmax(·, axis=1)` on one row: the first index attaining the
maximum. -/
def argmaxRow : List α → Nat
  | [] => 0
  | v :: vs => argmaxGo vs v 1 0

/-- `predict`: a forward pass followed by a row-wise argmax. -/
def predict (exp : α → α) (nn : Network α) (x : Mat α) :
    Network α × List Nat :=
  let fr := forward exp nn x
  (fr.1, fr.2.map argmaxRow)

/-- A one-hot label matrix: every row has entries in `{0, 1}` summing to 1. -/
def isOneHot (A : Mat α) : Prop :=
  ∀ r ∈ A, (∀ v ∈ r, v = 0 ∨ v = 1) ∧ r.sum = 1

/-- Every entry of the matrix lies in `[0, 1]`. -/
def entriesIn01 (A : Mat α) : Prop := ∀ r ∈ A, ∀ v ∈ r, 0 ≤ v ∧ v ≤ 1

/-! ### Helper lemmas -/

lemma foldl_max_mem (v : α) (vs : List α) : vs.foldl max v ∈ v :: vs := by
  induction vs generalizing v with
  | nil => simp
  | cons b bs ih =>
    have h := ih (max v b)
    rcases List.mem_cons.mp h with h | h
    · rw [List.foldl_cons, h]
      rcases max_choice v b with hm | hm <;> rw [hm] <;> simp
    · simp [h]

lemma le_foldl_max (v : α) (vs : List α) : ∀ u ∈ v :: vs, u ≤ vs.foldl max v := by
  induction vs generalizing v with
  | nil => intro u hu; simp at hu; simp [hu]
  | cons b bs ih =>
    intro u hu
    rcases List.mem_cons.mp hu with h | h
    · subst h
      exact le_trans (le_max_left u b) (ih (max u b) _ (List.mem_cons_self _ _))
    · rcases List.mem_cons.mp h with h | h
      · subst h
        exact le_trans (le_max_right v u) (ih (max v u) _ (List.mem_cons_self _ _))
      · exact ih (max v b) u (List.mem_cons_of_mem _ h)

lemma rowMax_mem (v : α) (vs : List α) : rowMax (v :: vs) ∈ v :: vs :=
  foldl_max_mem v vs

lemma le_rowMax (v : α) (vs : List α) : ∀ u ∈ v :: vs, u ≤ rowMax (v :: vs) :=
  le_foldl_max v vs

lemma getD_map_zero (f : α → α) (hf : f 0 = 0) :
    ∀ (l : List α) (j : Nat), (l.map f).getD j 0 = f (l.getD j 0) := by
  intro l
  induction l with
  | nil => intro j; simp [hf]
  | cons a l ih =>
    intro j
    cases j with
    | zero => simp
    | succ j => simpa using ih j

lemma entry_matMap (f : α → α) (hf : f 0 = 0) (A : Mat α) (i j : Nat) :
    entry (matMap f A) i j = f (entry A i j) := by
  unfold entry matMap
  induction A generalizing i with
  | nil => simp [hf]
  | cons r A ih =>
    cases i with
    | zero => simpa using getD_map_zero f hf r j
    | succ i => simpa using ih i

lemma zipWith_mul_getD_zero (a b : List α) (j : Nat) (h : b.getD j 0 = 0) :
    (List.zipWith (· * ·) a b).getD j 0 = 0 := by
  induction a generalizing b j with
  | nil => simp
  | cons x a ih =>
    cases b with
    | nil => simp
    | cons y b =>
      cases j with
      | zero => simp_all
      | succ j => simpa using ih b j (by simpa using h)

lemma entry_matElemMul_zero (A B : Mat α) (i j : Nat) (h : entry B i j = 0) :
    entry (matElemMul A B) i j = 0 := by
  unfold entry matElemMul at *
  induction A generalizing B i with
  | nil => simp
  | cons r A ih =>
    cases B with
    | nil => simp
    | cons s B =>
      cases i with
      | zero => simpa using zipWith_mul_getD_zero r s j (by simpa using h)
      | succ i => simpa using ih B i (by simpa using h)

/-! ### The claims -/

/-- C1.  A `backward(X, Y_true)` call made immediately after `forward(X)`
returns exactly the chain-rule gradients: `dZ_out = Y_pred − Y_true`,
`dW_ho = A_hiddenᵗ·dZ_out / m`, `db_o = colSum dZ_out / m`,
`dA_hidden = dZ_out·W_hoᵗ`, `dZ_hidden = dA_hidden ⊙ ReLU′(Z_hidden)`,
`dW_ih = Xᵗ·dZ_hidden / m`, `db_h = colSum dZ_hidden / m`, in the order
`(dW_ih, db_h, dW_ho, db_o)`, where `m` is the batch size. -/
theorem backward_chain_rule (exp : α → α) (nn : Network α) (x y_true : Mat α) :
    (backward (forward exp nn x).1 x y_true).2 =
      (matDiv (matMul (transpose x)
          (matElemMul
            (matMul (matSub (forward exp nn x).2 y_true)
              (transpose nn.weights_hidden_to_output))
            (matMap relu_derivative
              (matAddBias (matMul x nn.weights_input_to_hidden) nn.bias_hidden))))
        (y_true.length : α),
       (colSum
          (matElemMul
            (matMul (matSub (forward exp nn x).2 y_true)
              (transpose nn.weights_hidden_to_output))
            (matMap relu_derivative
              (matAddBias (matMul x nn.weights_input_to_hidden) nn.bias_hidden)))).map
          (fun v => v / (y_true.length : α)),
       matDiv (matMul
          (transpose (matMap relu
            (matAddBias (matMul x nn.weights_input_to_hidden) nn.bias_hidden)))
          (matSub (forward exp nn x).2 y_true)) (y_true.length : α),
       (colSum (matSub (forward exp nn x).2 y_true)).map
          (fun v => v / (y_true.length : α))) := rfl

/-- C2.  `forward(X)` computes the hidden pre-activation `X·W_ih + b_h`, the
hidden activation `max(0, ·)` elementwise, the output pre-activation
`A_hidden·W_ho + b_o`, and returns its row-wise softmax in the numerically
stable form: each row is exponentiated after subtracting the row's maximum
(`rowMax`, which is a member of the row and an upper bound of it) and then
divided by the row sum of those exponentials. -/
theorem forward_formula (exp : α → α) (nn : Network α) (x : Mat α) :
    (forward exp nn x).2 =
      (matAddBias
          (matMul
            (matMap relu
              (matAddBias (matMul x nn.weights_input_to_hidden) nn.bias_hidden))
            nn.weights_hidden_to_output)
          nn.bias_output).map
        (fun r =>
          (r.map (fun v => exp (v - rowMax r))).map
            (fun u => u / (r.map (fun v => exp (v - rowMax r))).sum)) ∧
    (∀ t : α, relu t = max 0 t) ∧
    (∀ (v : α) (vs : List α),
      rowMax (v :: vs) ∈ v :: vs ∧ ∀ u ∈ v :: vs, u ≤ rowMax (v :: vs)) :=
  ⟨rfl, fun _ => rfl, fun v vs => ⟨rowMax_mem v vs, le_rowMax v vs⟩⟩

lemma trainAux_spec (exp log : α → α) (x y_true : Mat α) (k : Nat) :
    ∀ (e : Nat) (nn : Network α),
      trainAux exp log x y_true nn e k =
        ((epochStep exp log x y_true)^[k] nn,
         (List.range k).map
           (fun i => epochLoss exp log x y_true ((epochStep exp log x y_true)^[i] nn)),
         ((List.range k).map
             (fun i => (e + i,
               epochLoss exp log x y_true ((epochStep exp log x y_true)^[i] nn)))).filter
           (fun q => q.1 % 100 == 0)) := by
  induction k with
  | zero => intro e nn; rfl
  | succ k ih =>
    intro e nn
    have hstep :
        trainAux exp log x y_true nn e (k + 1) =
          ((trainAux exp log x y_true (epochStep exp log x y_true nn) (e + 1) k).1,
           epochLoss exp log x y_true nn ::
             (trainAux exp log x y_true (epochStep exp log x y_true nn) (e + 1) k).2.1,
           (if e % 100 = 0 then [(e, epochLoss exp log x y_true nn)] else []) ++
             (trainAux exp log x y_true (epochStep exp log x y_true nn) (e + 1) k).2.2) := rfl
    rw [hstep, ih (e + 1) (epochStep exp log x y_true nn)]
    refine Prod.ext ?_ (Prod.ext ?_ ?_)
    · simp [Function.iterate_succ_apply]
    · simp only [List.range_succ_eq_map, List.map_cons, List.map_map]
      refine congrArg₂ List.cons ?_ ?_
      · simp
      · exact List.map_congr_left fun i _ => by
          simp [Function.comp, Function.iterate_succ_apply]
    · simp only [List.range_succ_eq_map, List.map_cons, List.map_map]
      rw [List.filter_cons]
      have hmap :
          (List.range k).map
              ((fun i => (e + i,
                  epochLoss exp log x y_true ((epochStep exp log x y_true)^[i] nn))) ∘
                Nat.succ) =
            (List.range k).map
              (fun i => (e + 1 + i,
                epochLoss exp log x y_true
                  ((epochStep exp log x y_true)^[i] (epochStep exp log x y_true nn)))) :=
        List.map_congr_left fun i _ => by
          simp [Function.comp, Function.iterate_succ_apply]
          omega
      rw [hmap]
      by_cases he : e % 100 = 0 <;> simp [he]

/-- C3, counterexample.  On the one-hot label `[[1, 0]]` and the valid
probability row `[[1, 0]]`, the loss is `−log(1 + 1e-9) < 0`: the claimed
non-negativity fails when a true-class probability is exactly 1, because the
stability epsilon pushes the argument of the logarithm above 1. -/
theorem compute_loss_nonneg_cex :
    isOneHot ([[1, 0]] : Mat ℝ) ∧
    entriesIn01 ([[1, 0]] : Mat ℝ) ∧
    compute_loss Real.log ([[1, 0]] : Mat ℝ) ([[1, 0]] : Mat ℝ) < 0 := by
  refine ⟨?_, ?_, ?_⟩
  · intro r hr
    simp only [List.mem_singleton] at hr
    subst hr
    refine ⟨?_, by norm_num⟩
    intro v hv
    simp only [List.mem_cons, List.not_mem_nil, or_false] at hv
    rcases hv with h | h <;> simp [h]
  · intro r hr v hv
    simp only [List.mem_singleton] at hr
    subst hr
    simp only [List.mem_cons, List.not_mem_nil, or_false] at hv
    rcases hv with h | h <;> norm_num [h]
  · have hlog : (0 : ℝ) < Real.log (1 + eps) :=
      Real.log_pos (by norm_num [eps])
    have hval : compute_loss Real.log ([[1, 0]] : Mat ℝ) ([[1, 0]] : Mat ℝ) =
        -Real.log (1 + eps) := by
      simp [compute_loss, matSum, matElemMul, matMap]
    rw [hval]
    linarith

lemma row_loss_le (rt rp : List ℝ) (h01 : ∀ v ∈ rt, v = 0 ∨ v = 1)
    (hp : ∀ v ∈ rp, 0 ≤ v ∧ v ≤ 1) (hl : rt.length = rp.length) :
    (List.zipWith (· * ·) rt (rp.map (fun v => Real.log (v + eps)))).sum ≤
      rt.sum * Real.log (1 + eps) := by
  induction rt generalizing rp with
  | nil => simp
  | cons a as ih =>
    cases rp with
    | nil => exact absurd hl (by simp)
    | cons b bs =>
      have hl' : as.length = bs.length := by simpa using hl
      have ih' := ih bs (fun v hv => h01 v (List.mem_cons_of_mem _ hv))
        (fun v hv => hp v (List.mem_cons_of_mem _ hv)) hl'
      have hb := hp b (List.mem_cons_self _ _)
      have heps : (0 : ℝ) < eps := by norm_num [eps]
      have hterm : a * Real.log (b + eps) ≤ a * Real.log (1 + eps) := by
        rcases h01 a (List.mem_cons_self _ _) with ha | ha
        · rw [ha]; simp
        · rw [ha, one_mul, one_mul]
          exact Real.log_le_log (by linarith [hb.1]) (by linarith [hb.2])
      simp only [List.map_cons, List.zipWith_cons_cons, List.sum_cons]
      rw [add_mul]
      exact add_le_add hterm ih'

lemma forall₂_rows_strengthen :
    ∀ (Yt Yp : Mat ℝ),
      List.Forall₂ (fun rt rp => rt.length = rp.length) Yt Yp →
      isOneHot Yt → entriesIn01 Yp →
      List.Forall₂
        (fun rt rp => ((∀ v ∈ rt, v = 0 ∨ v = 1) ∧ rt.sum = 1) ∧
          (∀ v ∈ rp, 0 ≤ v ∧ v ≤ 1) ∧ rt.length = rp.length) Yt Yp := by
  intro Yt Yp hsh
  induction hsh with
  | nil => intro _ _; exact .nil
  | @cons rt rp Yt' Yp' hlen _ ih =>
    intro h1 h2
    exact .cons ⟨h1 rt (List.mem_cons_self _ _), h2 rp (List.mem_cons_self _ _), hlen⟩
      (ih (fun r hr => h1 r (List.mem_cons_of_mem _ hr))
        (fun r hr => h2 r (List.mem_cons_of_mem _ hr)))

lemma matrix_loss_le (Yt Yp : Mat ℝ)
    (hsh : List.Forall₂
      (fun rt rp => ((∀ v ∈ rt, v = 0 ∨ v = 1) ∧ rt.sum = 1) ∧
        (∀ v ∈ rp, 0 ≤ v ∧ v ≤ 1) ∧ rt.length = rp.length) Yt Yp) :
    matSum (matElemMul Yt (matMap (fun v => Real.log (v + eps)) Yp)) ≤
      (Yt.length : ℝ) * Real.log (1 + eps) := by
  induction hsh with
  | nil => simp [matSum, matElemMul, matMap]
  | @cons rt rp Yt' Yp' hhead _ ih =>
    have hrow := row_loss_le rt rp hhead.1.1 hhead.2.1 hhead.2.2
    rw [hhead.1.2, one_mul] at hrow
    simp only [matMap, List.map_cons, matElemMul, List.zipWith_cons_cons, matSum,
      List.sum_cons, List.length_cons] at ih ⊢
    push_cast
    have := ih
    ring_nf
    ring_nf at this
    nlinarith [hrow, this]

/-- C3, amended.  For a one-hot `Y_true` and a `Y_pred` whose entries lie in
`[0, 1]` (rows of matching width, at least one row), `compute_loss` returns a
value ≥ `−log(1 + 1e-9)`; it is not ≥ 0 in general, since a true-class
probability of exactly 1 makes the epsilon-shifted logarithm positive. -/
theorem compute_loss_lower_bound (Yt Yp : Mat ℝ) (h1 : isOneHot Yt)
    (h2 : entriesIn01 Yp) (hne : Yt ≠ [])
    (hsh : List.Forall₂ (fun rt rp => rt.length = rp.length) Yt Yp) :
    -Real.log (1 + eps) ≤ compute_loss Real.log Yt Yp := by
  have hm : (0 : ℝ) < (Yt.length : ℝ) := by
    have h : 0 < Yt.length := List.length_pos.mpr hne
    exact_mod_cast h
  have hS := matrix_loss_le Yt Yp (forall₂_rows_strengthen Yt Yp hsh h1 h2)
  unfold compute_loss
  rw [neg_div, neg_le_neg_iff, div_le_iff₀ hm]
  linarith

/-- Witness for C3's amended bound at a concrete one-hot label and uniform
prediction. -/
theorem compute_loss_lower_bound_witness :
    -Real.log (1 + eps) ≤
      compute_loss Real.log ([[1, 0]] : Mat ℝ) ([[1 / 2, 1 / 2]] : Mat ℝ) :=
  compute_loss_lower_bound [[1, 0]] [[1 / 2, 1 / 2]]
    (by
      intro r hr
      simp only [List.mem_singleton] at hr
      subst hr
      refine ⟨?_, by norm_num⟩
      intro v hv
      simp only [List.mem_cons, List.not_mem_nil, or_false] at hv
      rcases hv with h | h <;> simp [h])
    (by
      intro r hr v hv
      simp only [List.mem_singleton] at hr
      subst hr
      simp only [List.mem_cons, List.not_mem_nil, or_false] at hv
      rcases hv with h | h <;> norm_num [h])
    (by simp)
    (.cons (by norm_num) .nil)

/-- C4.  The backward pass's local ReLU derivative is 1 for strictly
positive inputs and 0 otherwise; in particular an entry of the cached hidden
pre-activation that is exactly 0 forces the corresponding entry of
`dZ_hidden` to 0 whatever the upstream gradient (the weights, cached output
activation and labels determining `dA_hidden` are arbitrary here), and
`backward` builds `dW_ih` and `db_h` from exactly this `dZ_hidden`. -/
theorem backward_relu_subgradient (nn : Network α) (x y_true : Mat α)
    (i j : Nat) (h : entry nn.z_hidden i j = 0) :
    entry (dzHidden nn y_true) i j = 0 ∧
    (∀ t : α, 0 < t → relu_derivative t = 1) ∧
    (∀ t : α, t ≤ 0 → relu_derivative t = 0) ∧
    (backward nn x y_true).2.1 =
      matDiv (matMul (transpose x) (dzHidden nn y_true)) (y_true.length : α) ∧
    (backward nn x y_true).2.2.1 =
      (colSum (dzHidden nn y_true)).map (fun v => v / (y_true.length : α)) := by
  refine ⟨?_, fun t ht => by simp [relu_derivative, ht],
    fun t ht => by simp [relu_derivative, not_lt.mpr ht], rfl, rfl⟩
  apply entry_matElemMul_zero
  rw [entry_matMap relu_derivative (by simp [relu_derivative]), h]
  simp [relu_derivative]

/-- Witness for C4 at a concrete state whose cached hidden pre-activation is
exactly 0 while the upstream gradient is not. -/
theorem backward_relu_subgradient_witness :
    entry (dzHidden (⟨[[1]], [[1]], [0], [0], 1, [[0]], [[0]], [[0]], [[1]]⟩ : Network ℚ)
        [[0]]) 0 0 = 0 ∧
    (∀ t : ℚ, 0 < t → relu_derivative t = 1) ∧
    (∀ t : ℚ, t ≤ 0 → relu_derivative t = 0) ∧
    (backward (⟨[[1]], [[1]], [0], [0], 1, [[0]], [[0]], [[0]], [[1]]⟩ : Network ℚ)
        [[1]] [[0]]).2.1 =
      matDiv (matMul (transpose [[1]])
        (dzHidden (⟨[[1]], [[1]], [0], [0], 1, [[0]], [[0]], [[0]], [[1]]⟩ : Network ℚ)
          [[0]])) (([[(0 : ℚ)]] : Mat ℚ).length : ℚ) ∧
    (backward (⟨[[1]], [[1]], [0], [0], 1, [[0]], [[0]], [[0]], [[1]]⟩ : Network ℚ)
        [[1]] [[0]]).2.2.1 =
      (colSum (dzHidden (⟨[[1]], [[1]], [0], [0], 1, [[0]], [[0]], [[0]], [[1]]⟩ : Network ℚ)
          [[0]])).map (fun v => v / (([[(0 : ℚ)]] : Mat ℚ).length : ℚ)) :=
  backward_relu_subgradient
    (⟨[[1]], [[1]], [0], [0], 1, [[0]], [[0]], [[0]], [[1]]⟩ : Network ℚ)
    [[1]] [[0]] 0 0 rfl

/-- C5.  `train(X, Y_true, epochs)` performs exactly `epochs` sequential
iterations (the final state is the `epochs`-fold iterate of the single-epoch
step, so there is no early stopping); each iteration runs, in order,
`forward`, `compute_loss` (whose scalar result is the epoch's entry of the
loss history — one entry per epoch), `backward`, `update_parameters`; and a
progress observation `(epoch, loss)` is emitted exactly for the 0-based
epoch indices with `epoch % 100 == 0`. -/
theorem train_loop_spec (exp log : α → α) (nn : Network α) (x y_true : Mat α)
    (epochs : Nat) :
    (train exp log nn x y_true epochs).1 = (epochStep exp log x y_true)^[epochs] nn ∧
    (train exp log nn x y_true epochs).2.1 =
      (List.range epochs).map
        (fun i => epochLoss exp log x y_true ((epochStep exp log x y_true)^[i] nn)) ∧
    (train exp log nn x y_true epochs).2.1.length = epochs ∧
    (train exp log nn x y_true epochs).2.2 =
      ((List.range epochs).map
          (fun i => (i,
            epochLoss exp log x y_true ((epochStep exp log x y_true)^[i] nn)))).filter
        (fun q => q.1 % 100 == 0) ∧
    (∀ s : Network α,
      trainStep exp log s x y_true =
        (update_parameters (forward exp s x).1
          ((backward (forward exp s x).1 x y_true).2.1)
          ((backward (forward exp s x).1 x y_true).2.2.1)
          ((backward (forward exp s x).1 x y_true).2.2.2.1)
          ((backward (forward exp s x).1 x y_true).2.2.2.2),
         compute_loss log y_true (forward exp s x).2)) := by
  have h := trainAux_spec exp log x y_true epochs 0 nn
  refine ⟨?_, ?_, ?_, ?_, fun s => rfl⟩
  · rw [train, h]
  · rw [train, h]
  · rw [train, h]; simp
  · rw [train, h]; simp

lemma sum_map_div (l : List α) (c : α) :
    (l.map (fun t => t / c)).sum = l.sum / c := by
  induction l with
  | nil => simp
  | cons a l ih => simp [ih, add_div]

lemma softmaxRow_mem_01 (exp : α → α) (hexp : ∀ t, 0 < exp t) (r : List α)
    (hr : r ≠ []) : ∀ v ∈ softmaxRow exp r, 0 ≤ v ∧ v ≤ 1 := by
  intro v hv
  unfold softmaxRow at hv
  rcases List.mem_map.mp hv with ⟨u, hu, rfl⟩
  have hpos : ∀ w ∈ r.map (fun t => exp (t - rowMax r)), 0 < w := by
    intro w hw
    rcases List.mem_map.mp hw with ⟨t, _, rfl⟩
    exact hexp _
  have hne : r.map (fun t => exp (t - rowMax r)) ≠ [] := by
    simpa using hr
  have hS : 0 < (r.map (fun t => exp (t - rowMax r))).sum :=
    List.sum_pos _ hpos hne
  refine ⟨div_nonneg (le_of_lt (hpos u hu)) (le_of_lt hS), ?_⟩
  rw [div_le_one hS]
  exact List.single_le_sum (fun w hw => le_of_lt (hpos w hw)) u hu

lemma softmaxRow_sum (exp : α → α) (hexp : ∀ t, 0 < exp t) (r : List α)
    (hr : r ≠ []) : (softmaxRow exp r).sum = 1 := by
  unfold softmaxRow
  rw [sum_map_div]
  have hpos : ∀ w ∈ r.map (fun t => exp (t - rowMax r)), 0 < w := by
    intro w hw
    rcases List.mem_map.mp hw with ⟨t, _, rfl⟩
    exact hexp _
  have hne : r.map (fun t => exp (t - rowMax r)) ≠ [] := by
    simpa using hr
  exact div_self (ne_of_gt (List.sum_pos _ hpos hne))

lemma length_transpose (A : Mat α) :
    (transpose A).length = (A.headD []).length := by
  simp [transpose]

lemma zOutput_row_length (nn : Network α) (X : Mat α) (outSize : Nat)
    (hW : (nn.weights_hidden_to_output.headD []).length = outSize)
    (hb : nn.bias_output.length = outSize) :
    ∀ z ∈ matAddBias
        (matMul
          (matMap relu (matAddBias (matMul X nn.weights_input_to_hidden) nn.bias_hidden))
          nn.weights_hidden_to_output)
        nn.bias_output,
      z.length = outSize := by
  intro z hz
  unfold matAddBias at hz
  rcases List.mem_map.mp hz with ⟨mr, hmr, rfl⟩
  rw [List.length_zipWith, hb]
  unfold matMul at hmr
  rcases List.mem_map.mp hmr with ⟨row, _, rfl⟩
  rw [List.length_map, length_transpose, hW, min_self]

/-- C6.  For every batch `X`, `forward(X)` returns a matrix with one row per
row of `X` and `output_size` columns (the width of `W_ho` and `b_o`), every
entry lies in `[0, 1]`, and every row sums to 1 within the tolerance
`1e-6`. -/
theorem forward_shape_prob (nn : Network ℝ) (X : Mat ℝ) (outSize : Nat)
    (hpos : 0 < outSize)
    (hW : (nn.weights_hidden_to_output.headD []).length = outSize)
    (hb : nn.bias_output.length = outSize) :
    ((forward Real.exp nn X).2).length = X.length ∧
    (∀ r ∈ (forward Real.exp nn X).2, r.length = outSize) ∧
    (∀ r ∈ (forward Real.exp nn X).2, ∀ v ∈ r, 0 ≤ v ∧ v ≤ 1) ∧
    (∀ r ∈ (forward Real.exp nn X).2, |r.sum - 1| ≤ 1 / 10 ^ 6) := by
  have hzlen := zOutput_row_length nn X outSize hW hb
  have hout : (forward Real.exp nn X).2 =
      softmax Real.exp
        (matAddBias
          (matMul
            (matMap relu (matAddBias (matMul X nn.weights_input_to_hidden) nn.bias_hidden))
            nn.weights_hidden_to_output)
          nn.bias_output) := rfl
  refine ⟨?_, ?_, ?_, ?_⟩
  · rw [hout]
    simp [softmax, matAddBias, matMul, matMap]
  · rw [hout]
    intro r hr
    rcases List.mem_map.mp hr with ⟨z, hz, rfl⟩
    have : (softmaxRow Real.exp z).length = z.length := by
      simp [softmaxRow]
    rw [this]
    exact hzlen z hz
  · rw [hout]
    intro r hr
    rcases List.mem_map.mp hr with ⟨z, hz, rfl⟩
    have hzne : z ≠ [] := by
      intro hcon
      have := hzlen z hz
      rw [hcon] at this
      simp at this
      omega
    exact softmaxRow_mem_01 Real.exp (fun t => Real.exp_pos t) z hzne
  · rw [hout]
    intro r hr
    rcases List.mem_map.mp hr with ⟨z, hz, rfl⟩
    have hzne : z ≠ [] := by
      intro hcon
      have := hzlen z hz
      rw [hcon] at this
      simp at this
      omega
    rw [softmaxRow_sum Real.exp (fun t => Real.exp_pos t) z hzne]
    norm_num

/-- Witness for C6 at a concrete one-unit network and a one-row batch. -/
theorem forward_shape_prob_witness :
    ((forward Real.exp
        (⟨[[1]], [[1]], [0], [0], 1, [], [], [], []⟩ : Network ℝ) [[1]]).2).length =
      ([[(1 : ℝ)]] : Mat ℝ).length ∧
    (∀ r ∈ (forward Real.exp
        (⟨[[1]], [[1]], [0], [0], 1, [], [], [], []⟩ : Network ℝ) [[1]]).2,
      r.length = 1) ∧
    (∀ r ∈ (forward Real.exp
        (⟨[[1]], [[1]], [0], [0], 1, [], [], [], []⟩ : Network ℝ) [[1]]).2,
      ∀ v ∈ r, 0 ≤ v ∧ v ≤ 1) ∧
    (∀ r ∈ (forward Real.exp
        (⟨[[1]], [[1]], [0], [0], 1, [], [], [], []⟩ : Network ℝ) [[1]]).2,
      |r.sum - 1| ≤ 1 / 10 ^ 6) :=
  forward_shape_prob (⟨[[1]], [[1]], [0], [0], 1, [], [], [], []⟩ : Network ℝ)
    [[1]] 1 Nat.one_pos rfl rfl

/-- C7.  `backward` mutates nothing: the stored weight matrices, bias
vectors and learning rate after the call are those before it, and the call
only returns the four gradient tensors. -/
theorem backward_no_mutation (nn : Network α) (x y_true : Mat α) :
    (backward nn x y_true).1.weights_input_to_hidden = nn.weights_input_to_hidden ∧
    (backward nn x y_true).1.bias_hidden = nn.bias_hidden ∧
    (backward nn x y_true).1.weights_hidden_to_output = nn.weights_hidden_to_output ∧
    (backward nn x y_true).1.bias_output = nn.bias_output ∧
    (backward nn x y_true).1.learning_rate = nn.learning_rate ∧
    (backward nn x y_true).1 = nn :=
  ⟨rfl, rfl, rfl, rfl, rfl, rfl⟩

lemma argmaxGo_spec (r : List α) :
    ∀ (vs : List α) (bv : α) (i best : Nat),
      r.drop i = vs → best < i → bv = r.getD best 0 → best < r.length →
      (∀ j, j < i → r.getD j 0 ≤ bv) →
      (∀ j, j < best → r.getD j 0 < bv) →
      argmaxGo vs bv i best < r.length ∧
      (∀ j, j < r.length → r.getD j 0 ≤ r.getD (argmaxGo vs bv i best) 0) ∧
      (∀ j, j < argmaxGo vs bv i best → r.getD j 0 < r.getD (argmaxGo vs bv i best) 0) := by
  intro vs
  induction vs with
  | nil =>
    intro bv i best hdrop hbi hbv hbl hub hstrict
    have hle : r.length ≤ i := List.drop_eq_nil_iff.mp hdrop
    refine ⟨hbl, ?_, ?_⟩
    · intro j hj
      rw [argmaxGo, ← hbv]
      exact hub j (lt_of_lt_of_le hj hle)
    · intro j hj
      rw [argmaxGo] at hj ⊢
      rw [← hbv]
      exact hstrict j hj
  | cons v vs' ih =>
    intro bv i best hdrop hbi hbv hbl hub hstrict
    have hi : i < r.length := by
      by_contra hcon
      rw [List.drop_eq_nil_of_le (le_of_not_lt hcon)] at hdrop
      exact List.noConfusion hdrop
    have hcons := List.drop_eq_getElem_cons (l := r) (n := i) hi
    rw [hdrop] at hcons
    have hv : r[i] = v := (List.cons.injEq _ _ _ _ ▸ hcons).1.symm
    have hdrop' : r.drop (i + 1) = vs' := ((List.cons.injEq _ _ _ _ ▸ hcons).2).symm
    have hfi : r.getD i 0 = v := by
      rw [List.getD_eq_getElem?_getD, List.getElem?_eq_getElem hi, hv]; rfl
    rw [argmaxGo]
    by_cases hlt : bv < v
    · rw [if_pos hlt]
      refine ih v (i + 1) i hdrop' (Nat.lt_succ_self i) hfi.symm hi ?_ ?_
      · intro j hj
        rcases Nat.lt_succ_iff_lt_or_eq.mp hj with hj | hj
        · exact le_of_lt (lt_of_le_of_lt (hub j hj) hlt)
        · subst hj; exact le_of_eq hfi
      · intro j hj
        exact lt_of_le_of_lt (hub j hj) hlt
    · rw [if_neg hlt]
      refine ih bv (i + 1) best hdrop' (Nat.lt_succ_of_lt hbi) hbv hbl ?_ hstrict
      intro j hj
      rcases Nat.lt_succ_iff_lt_or_eq.mp hj with hj | hj
      · exact hub j hj
      · subst hj; rw [hfi]; exact le_of_not_lt hlt

/-- C8.  `predict(X)` computes `forward(X)` and returns, per row, the index
of the row's maximum probability; the scan returns an in-range index whose
value is an upper bound of the whole row, and every strictly earlier index
holds a strictly smaller value — so ties are broken by the lowest index. -/
theorem predict_argmax_spec (exp : α → α) (nn : Network α) (x : Mat α) :
    (predict exp nn x).2 = ((forward exp nn x).2).map argmaxRow ∧
    ∀ (v : α) (vs : List α),
      argmaxRow (v :: vs) < (v :: vs).length ∧
      (∀ j, j < (v :: vs).length →
        (v :: vs).getD j 0 ≤ (v :: vs).getD (argmaxRow (v :: vs)) 0) ∧
      (∀ j, j < argmaxRow (v :: vs) →
        (v :: vs).getD j 0 < (v :: vs).getD (argmaxRow (v :: vs)) 0) := by
  refine ⟨rfl, fun v vs => ?_⟩
  have h := argmaxGo_spec (v :: vs) vs v 1 0 rfl Nat.zero_lt_one rfl
    (by simp) ?_ ?_
  · exact h
  · intro j hj
    interval_cases j
    simp
  · intro j hj
    exact absurd hj (Nat.not_lt_zero j)

/-- C9.  Prediction is idempotent: two successive `predict(X)` calls with no
intervening train call return the same class indices, because `forward`
changes only the cached intermediates and its output depends only on the
parameters. -/
theorem predict_idempotent (exp : α → α) (nn : Network α) (x : Mat α) :
    (predict exp (predict exp nn x).1 x).2 = (predict exp nn x).2 := rfl

/-- C10.  `forward(X)` leaves the weights, biases and learning rate
unchanged and only overwrites the four cached intermediates with the values
computed from `X` (`predict` shares this state change); consequently a
`backward(X, Y_true)` issued after a forward pass on a different batch `x2`
consumes `x2`'s cached intermediates: its gradients are the chain-rule
formulas evaluated at `x2`'s activations (with `X` only entering as the
input matrix of `dW_ih`). -/
theorem forward_cache_frame (exp : α → α) (nn : Network α) (x x2 y_true : Mat α) :
    (forward exp nn x).1.weights_input_to_hidden = nn.weights_input_to_hidden ∧
    (forward exp nn x).1.bias_hidden = nn.bias_hidden ∧
    (forward exp nn x).1.weights_hidden_to_output = nn.weights_hidden_to_output ∧
    (forward exp nn x).1.bias_output = nn.bias_output ∧
    (forward exp nn x).1.learning_rate = nn.learning_rate ∧
    (forward exp nn x).1.z_hidden =
      matAddBias (matMul x nn.weights_input_to_hidden) nn.bias_hidden ∧
    (forward exp nn x).1.a_hidden =
      matMap relu (matAddBias (matMul x nn.weights_input_to_hidden) nn.bias_hidden) ∧
    (forward exp nn x).1.z_output =
      matAddBias
        (matMul (matMap relu (matAddBias (matMul x nn.weights_input_to_hidden) nn.bias_hidden))
          nn.weights_hidden_to_output) nn.bias_output ∧
    (forward exp nn x).1.a_output =
      softmax exp ((forward exp nn x).1.z_output) ∧
    (predict exp nn x).1 = (forward exp nn x).1 ∧
    (backward (forward exp nn x2).1 x y_true).2 =
      (matDiv (matMul (transpose x)
          (matElemMul
            (matMul (matSub (forward exp nn x2).2 y_true)
              (transpose nn.weights_hidden_to_output))
            (matMap relu_derivative (forward exp nn x2).1.z_hidden)))
        (y_true.length : α),
       (colSum
          (matElemMul
            (matMul (matSub (forward exp nn x2).2 y_true)
              (transpose nn.weights_hidden_to_output))
            (matMap relu_derivative (forward exp nn x2).1.z_hidden))).map
          (fun v => v / (y_true.length : α)),
       matDiv (matMul (transpose (forward exp nn x2).1.a_hidden)
          (matSub (forward exp nn x2).2 y_true)) (y_true.length : α),
       (colSum (matSub (forward exp nn x2).2 y_true)).map
          (fun v => v / (y_true.length : α))) :=
  ⟨rfl, rfl, rfl, rfl, rfl, rfl, rfl, rfl, rfl, rfl, rfl⟩

end NNFS
